import Mathlib

/-!
Verification development for the ip_diffim PSF-matching kernel engine.

The repository ships the Python-level glue (diffimTools.py, utils.py) and the
unit tests; the C++ core (convolveAndSubtract, the kernel solvers and the
cell visitors) is referenced by the tests but its sources are not present.
Definitions for that core are therefore modelled from the specification text,
as indicated in their doc comments; diffimTools.sourceToFootprintList is
embedded directly from the Python source.

Pixel values are modelled as rationals, masks as natural-number bit sets and
image coordinates as integers.
-/

set_option maxHeartbeats 1000000

/-- Integer bounding box with inclusive bounds, mirroring afwGeom.Box2I. -/
structure Box2I where
  minX : ℤ
  minY : ℤ
  maxX : ℤ
  maxY : ℤ
deriving DecidableEq, Repr

/-- Membership of a pixel coordinate in a box (all bounds inclusive). -/
def Box2I.containsPt (b : Box2I) (x y : ℤ) : Prop :=
  b.minX ≤ x ∧ x ≤ b.maxX ∧ b.minY ≤ y ∧ y ≤ b.maxY

instance (b : Box2I) (x y : ℤ) : Decidable (b.containsPt x y) := by
  unfold Box2I.containsPt; infer_instance

/-- One box contained in another (empty boxes are contained in anything). -/
def Box2I.isContainedBy (inner outer : Box2I) : Prop :=
  ∀ x y : ℤ, inner.containsPt x y → outer.containsPt x y

/-- Width of a box, counted in pixels. -/
def Box2I.width (b : Box2I) : ℤ := b.maxX - b.minX + 1

/-- Height of a box, counted in pixels. -/
def Box2I.height (b : Box2I) : ℤ := b.maxY - b.minY + 1

/-- Fixed 2-D convolution kernel: a coefficient array of given width and
height, mirroring the kernel images used by afwMath. Coefficients are
indexed from the lower-left corner of the kernel footprint. -/
structure Kernel2D where
  width : ℕ
  height : ℕ
  coeffs : ℕ → ℕ → ℚ

/-- Column index of the kernel center pixel (width over two for odd width). -/
def Kernel2D.ctrX (K : Kernel2D) : ℕ := K.width / 2

/-- Row index of the kernel center pixel. -/
def Kernel2D.ctrY (K : Kernel2D) : ℕ := K.height / 2

/-- Sum of all kernel coefficients: the kernel flux normalisation. -/
def Kernel2D.kSum (K : Kernel2D) : ℚ :=
  ∑ i ∈ Finset.range K.width, ∑ j ∈ Finset.range K.height, K.coeffs i j

/-- Discrete 2-D convolution of an image with a kernel at one output pixel,
following the afwMath convention: the output at (x, y) gathers input pixels
offset by the kernel footprint relative to the kernel center. -/
def convolvePix (T : ℤ → ℤ → ℚ) (K : Kernel2D) (x y : ℤ) : ℚ :=
  ∑ i ∈ Finset.range K.width, ∑ j ∈ Finset.range K.height,
    K.coeffs i j * T (x + i - K.ctrX) (y + j - K.ctrY)

/-- Shrink a bounding box by the kernel border, mirroring
afwMath.Kernel.shrinkBBox: the result is the set of output pixels whose full
kernel footprint lies inside the original box. -/
def Kernel2D.shrinkBBox (K : Kernel2D) (b : Box2I) : Box2I :=
  { minX := b.minX + K.ctrX
    minY := b.minY + K.ctrY
    maxX := b.maxX - ((K.width - 1 - K.ctrX : ℕ) : ℤ)
    maxY := b.maxY - ((K.height - 1 - K.ctrY : ℕ) : ℤ) }

/-- Masked image: intensity plane, variance plane and bitmask plane sharing
one bounding box. Planes are total functions on integer coordinates; only
values inside the box are meaningful. -/
structure MaskedImage where
  img : ℤ → ℤ → ℚ
  var : ℤ → ℤ → ℚ
  msk : ℤ → ℤ → ℕ
  bbox : Box2I

/-- Modelled from the spec: the convolve-and-subtract primitive of the
missing C++ core (ImageSubtract.cc). Pixel-wise it computes
science minus the convolution of the template with the kernel minus the
background, valid only on the region where the kernel footprint is fully
interior to the template. -/
def convolveAndSubtract (tmi smi : MaskedImage) (K : Kernel2D)
    (bg : ℤ → ℤ → ℚ) : MaskedImage :=
  { img := fun x y => smi.img x y - convolvePix tmi.img K x y - bg x y
    var := fun x y => smi.var x y + convolvePix tmi.var K x y
    msk := fun x y => smi.msk x y ||| tmi.msk x y
    bbox := smi.bbox }

/-- Valid region of a convolve-and-subtract result: the bounding box shrunk
by the kernel border on each side. -/
def convolveAndSubtractValidRegion (smi : MaskedImage) (K : Kernel2D) : Box2I :=
  K.shrinkBBox smi.bbox

/-- List of integers from lo to hi inclusive. -/
def intRange (lo hi : ℤ) : List ℤ :=
  (List.range (hi + 1 - lo).toNat).map (fun i : ℕ => lo + (i : ℤ))

/-- All pixel coordinates of a box, row-major. -/
def boxPixels (b : Box2I) : List (ℤ × ℤ) :=
  (intRange b.minX b.maxX).bind (fun x => (intRange b.minY b.maxY).map (fun y => (x, y)))

/-- FindSetBitsU applied to a mask sub-image: the bitwise OR of every mask
pixel inside the box, embedded from FindSetBits and its use in
diffimTools.sourceToFootprintList. -/
def findSetBits (msk : ℤ → ℤ → ℕ) (b : Box2I) : ℕ :=
  ((boxPixels b).map (fun p => msk p.1 p.2)).foldr (fun a acc => a ||| acc) 0

/-- Source record: the identity and pixel center of one selected source
(the sky-to-pixel conversion of the WCS is applied externally). -/
structure SourceRecord where
  srcId : ℤ
  centerX : ℤ
  centerY : ℤ
deriving DecidableEq, Repr

/-- Element of the input list of sourceToFootprintList: either a genuine
afwTable.SourceRecord or a value of some other type. -/
inductive PyInput where
  | src (s : SourceRecord)
  | nonSource
deriving DecidableEq, Repr

/-- Detection configuration fields read by sourceToFootprintList. The
badMaskPlanes field holds the plane bit masks already resolved by
afwImage.MaskU.getPlaneBitMask. -/
structure DetectionConfig where
  badMaskPlanes : List ℕ
  fpGrowPix : ℤ
  scaleByFwhm : Bool
  fpGrowKernelScaling : ℚ

/-- Bitwise OR of the configured bad mask planes
(diffimTools.py lines 303 to 305). -/
def badBitMaskOf (cfg : DetectionConfig) : ℕ :=
  cfg.badMaskPlanes.foldl (fun acc m => acc ||| m) 0

/-- Stamp grow radius (diffimTools.py lines 309 to 312): scaled from the
kernel size and rounded when scaleByFwhm is set, fixed otherwise. -/
def fpGrowPixOf (cfg : DetectionConfig) (kernelSize : ℚ) : ℤ :=
  if cfg.scaleByFwhm then ⌊cfg.fpGrowKernelScaling * kernelSize + 1 / 2⌋
  else cfg.fpGrowPix

/-- Grow a box of radius fpGrowPix around a source center and clip it to the
exposure box keeping the object centered, embedded from
diffimTools.py lines 326 to 343. Each clip updates both edges of the axis by
the overshoot, mirroring the Python statements in order. -/
def growSourceBBox (bbox : Box2I) (fpGrowPix cx cy : ℤ) : Box2I :=
  let xmin0 := cx - fpGrowPix
  let xmax0 := cx + fpGrowPix
  let ymin0 := cy - fpGrowPix
  let ymax0 := cy + fpGrowPix
  let xmax1 := if xmin0 - bbox.minX < 0 then xmax0 + (xmin0 - bbox.minX) else xmax0
  let xmin1 := if xmin0 - bbox.minX < 0 then xmin0 - (xmin0 - bbox.minX) else xmin0
  let ymax1 := if ymin0 - bbox.minY < 0 then ymax0 + (ymin0 - bbox.minY) else ymax0
  let ymin1 := if ymin0 - bbox.minY < 0 then ymin0 - (ymin0 - bbox.minY) else ymin0
  let xmin2 := if bbox.maxX - xmax1 < 0 then xmin1 - (bbox.maxX - xmax1) else xmin1
  let xmax2 := if bbox.maxX - xmax1 < 0 then xmax1 + (bbox.maxX - xmax1) else xmax1
  let ymin2 := if bbox.maxY - ymax1 < 0 then ymin1 - (bbox.maxY - ymax1) else ymin1
  let ymax2 := if bbox.maxY - ymax1 < 0 then ymax1 + (bbox.maxY - ymax1) else ymax1
  ⟨xmin2, ymin2, xmax2, ymax2⟩

/-- Coordinate-wise containment of one box in another, as used by the afw
sub-image constructor inside the try block of sourceToFootprintList. -/
def Box2I.containsBox (outer inner : Box2I) : Prop :=
  outer.minX ≤ inner.minX ∧ inner.maxX ≤ outer.maxX ∧
  outer.minY ≤ inner.minY ∧ inner.maxY ≤ outer.maxY

instance (outer inner : Box2I) : Decidable (outer.containsBox inner) := by
  unfold Box2I.containsBox; infer_instance

/-- Output element of sourceToFootprintList: the accepted source together
with the bounding box of its grown footprint. -/
structure FootprintEntry where
  source : SourceRecord
  fpBBox : Box2I
deriving DecidableEq, Repr

/-- Per-source body of the loop of sourceToFootprintList
(diffimTools.py lines 318 to 357): drop sources whose center leaves the
science box, grow and clip the stamp box, skip the source when a sub-image
cannot be cut from either exposure (the try block), and accept it exactly
when neither stamp carries a configured bad mask bit. -/
def processSource (tExp sExp : MaskedImage) (badBitMask : ℕ) (fpGrowPix : ℤ)
    (s : SourceRecord) : Option FootprintEntry :=
  let bbox := sExp.bbox
  if s.centerX < bbox.minX ∨ s.centerX > bbox.maxX then none
  else if s.centerY < bbox.minY ∨ s.centerY > bbox.maxY then none
  else
    let kbbox := growSourceBBox bbox fpGrowPix s.centerX s.centerY
    if kbbox.minX > kbbox.maxX ∨ kbbox.minY > kbbox.maxY then none
    else if ¬(tExp.bbox.containsBox kbbox ∧ sExp.bbox.containsBox kbbox) then none
    else
      let bm1 := findSetBits tExp.msk kbbox
      let bm2 := findSetBits sExp.msk kbbox
      if bm1 &&& badBitMask ≠ 0 ∨ bm2 &&& badBitMask ≠ 0 then none
      else some ⟨s, kbbox⟩

/-- Error message raised for an input element of the wrong type
(diffimTools.py line 317). -/
def candTypeErrMsg : String := "Candiate not of type afwTable.SourceRecord"

/-- Loop of sourceToFootprintList over genuine source records only,
accumulating the accepted footprint entries in input order. -/
def footprintListOf (sources : List SourceRecord) (tExp sExp : MaskedImage)
    (badBitMask : ℕ) (fpGrowPix : ℤ) : List FootprintEntry :=
  match sources with
  | [] => []
  | s :: rest =>
      (processSource tExp sExp badBitMask fpGrowPix s).toList ++
        footprintListOf rest tExp sExp badBitMask fpGrowPix

/-- Embedding of diffimTools.sourceToFootprintList: walks the input list,
raising a RuntimeError on the first element that is not an
afwTable.SourceRecord, and otherwise collecting the footprint entries of the
accepted sources. -/
def sourceToFootprintList (candidateInList : List PyInput)
    (tExp sExp : MaskedImage) (kernelSize : ℚ) (cfg : DetectionConfig) :
    Except String (List FootprintEntry) :=
  match candidateInList with
  | [] => Except.ok []
  | PyInput.nonSource :: _ => Except.error candTypeErrMsg
  | PyInput.src s :: rest =>
      match sourceToFootprintList rest tExp sExp kernelSize cfg with
      | Except.error e => Except.error e
      | Except.ok tail =>
          Except.ok
            ((processSource tExp sExp (badBitMaskOf cfg)
                (fpGrowPixOf cfg kernelSize) s).toList ++ tail)

/-- C1: for template and science masked images of equal dimensions, a kernel
and a background function, every pixel of the convolve-and-subtract result in
the valid (shrunk) region equals science minus the convolution of the
template with the kernel minus the background; in particular, when the
science image is exactly the convolution of the template with the kernel and
the background is the constant bgVal, every such pixel equals minus bgVal. -/
theorem convolveAndSubtract_diff_eq (tmi smi : MaskedImage) (K : Kernel2D)
    (bg : ℤ → ℤ → ℚ) (bgVal : ℚ) (x y : ℤ)
    (hdim : tmi.bbox = smi.bbox)
    (hin : (convolveAndSubtractValidRegion smi K).containsPt x y) :
    (convolveAndSubtract tmi smi K bg).img x y
        = smi.img x y - convolvePix tmi.img K x y - bg x y
      ∧ ((∀ u v : ℤ, smi.img u v = convolvePix tmi.img K u v) →
          (∀ u v : ℤ, bg u v = bgVal) →
          (convolveAndSubtract tmi smi K bg).img x y = -bgVal) := by
  refine ⟨rfl, fun hconv hbg => ?_⟩
  show smi.img x y - convolvePix tmi.img K x y - bg x y = -bgVal
  rw [hconv x y, hbg x y]
  ring

/-- All-zero image plane. -/
def imgZero : ℤ → ℤ → ℚ := fun _ _ => 0

/-- All-zero mask plane. -/
def mskZero : ℤ → ℤ → ℕ := fun _ _ => 0

/-- Concrete 100 by 100 exposure with clear masks, for the concrete geometry
scenarios. -/
def exp100 : MaskedImage := ⟨imgZero, imgZero, mskZero, ⟨0, 0, 99, 99⟩⟩

/-- Concrete one-row ten-pixel exposure with clear masks, for the concrete
masking scenarios. -/
def expRow : MaskedImage := ⟨imgZero, imgZero, mskZero, ⟨0, 0, 9, 0⟩⟩

/-- Detection config with bad plane bit 1 and fixed grow radius 10. -/
def cfgGrow10 : DetectionConfig := ⟨[1], 10, false, 0⟩

/-- Detection config with bad plane bit 1 and fixed grow radius 2. -/
def cfgGrow2 : DetectionConfig := ⟨[1], 2, false, 0⟩

/-- Set additional mask bits at one pixel of a masked image, as the tests do
when they corrupt a stamp region. -/
def setMaskBit (mi : MaskedImage) (qx qy : ℤ) (bit : ℕ) : MaskedImage :=
  { mi with msk := fun x y => if x = qx ∧ y = qy then mi.msk x y ||| bit else mi.msk x y }

/-- Number of terms of a 2-D polynomial with all monomials of total degree
up to the order: (order + 1)(order + 2) / 2. -/
def nSpatialTerms (order : ℕ) : ℕ := (order + 1) * (order + 2) / 2

/-- Exponent pairs of the 2-D monomials of one total degree. -/
def degTerms (d : ℕ) : List (ℕ × ℕ) :=
  (List.range (d + 1)).map (fun j => (d - j, j))

/-- Exponent pairs of all 2-D monomials up to the given total degree,
ordered by degree as in afwMath.PolynomialFunction2D. -/
def polyTerms : ℕ → List (ℕ × ℕ)
  | 0 => [(0, 0)]
  | o + 1 => polyTerms o ++ degTerms (o + 1)

/-- Value of one 2-D monomial at a position. -/
def termEval (p : ℕ × ℕ) (x y : ℚ) : ℚ := x ^ p.1 * y ^ p.2

/-- One weighted scalar observation at a position. -/
structure WObs where
  x : ℚ
  y : ℚ
  v : ℚ
  w : ℚ

/-- Normal-equations matrix of a weighted least-squares fit over n basis
monomials. -/
def lsqMatrix (n : ℕ) (φ : Fin n → ℕ × ℕ) (obs : List WObs) :
    Matrix (Fin n) (Fin n) ℚ :=
  Matrix.of fun i j => (obs.map (fun o =>
    o.w * termEval (φ i) o.x o.y * termEval (φ j) o.x o.y)).sum

/-- Normal-equations right-hand side of the same fit. -/
def lsqVec (n : ℕ) (φ : Fin n → ℕ × ℕ) (obs : List WObs) : Fin n → ℚ :=
  fun i => (obs.map (fun o => o.w * o.v * termEval (φ i) o.x o.y)).sum

/-- Inverse of a square rational matrix through the adjugate; the zero
matrix when the matrix is singular. -/
def matInverse {n : ℕ} (A : Matrix (Fin n) (Fin n) ℚ) :
    Matrix (Fin n) (Fin n) ℚ :=
  (A.det)⁻¹ • A.adjugate

/-- Weighted least-squares fit: solve the normal equations and list the
fitted coefficients in basis order. -/
def lsqFit (n : ℕ) (φ : Fin n → ℕ × ℕ) (obs : List WObs) : List ℚ :=
  List.ofFn ((matInverse (lsqMatrix n φ obs)).mulVec (lsqVec n φ obs))

/-- Weighted least-squares 2-D polynomial fit over a monomial list. -/
def polyFit (ts : List (ℕ × ℕ)) (obs : List WObs) : List ℚ :=
  lsqFit ts.length ts.get obs

/-- Per-candidate input to the spatial solver: candidate center, the
single-kernel coefficient vector over the basis, the fitted background value
and the candidate weight. -/
structure SpatialObs where
  x : ℚ
  y : ℚ
  coeffs : List ℚ
  bg : ℚ
  w : ℚ

/-- Observations of the coefficient of one basis kernel across the
candidates. -/
def kObs (k : ℕ) (cands : List SpatialObs) : List WObs :=
  cands.map (fun c => ⟨c.x, c.y, c.coeffs.getD k 0, c.w⟩)

/-- Observations of the background value across the candidates. -/
def bgObs (cands : List SpatialObs) : List WObs :=
  cands.map (fun c => ⟨c.x, c.y, c.bg, c.w⟩)

/-- Weighted mean of observations: the order-0 shortcut of the spatial
solver. -/
def weightedMean (obs : List WObs) : ℚ :=
  (obs.map (fun o => o.w * o.v)).sum / (obs.map (fun o => o.w)).sum

/-- Modelled from the spec: the state of the Spatial Kernel Solver of the
missing C++ core (BuildSpatialKernelVisitor and SpatialKernelSolution):
basis count, spatial kernel order, spatial background order, the
background-fitting flag and the per-candidate coefficient observations. -/
structure SpatialKernelSolution where
  nBases : ℕ
  order : ℕ
  bgOrder : ℕ
  fitForBackground : Bool
  cands : List SpatialObs

/-- Modelled from the spec: the order-0 path of the solved spatial kernel.
The solver skips the polynomial assembly and takes a per-basis weighted mean,
so the solution is one kernel parameter per basis kernel. -/
def getKernelParameters (S : SpatialKernelSolution) : List ℚ :=
  (List.range S.nBases).map (fun k => weightedMean (kObs k S.cands))

/-- Modelled from the spec: the general path of the solved spatial kernel
for order at least 1. Each basis coefficient is modelled as a 2-D polynomial
of position fit by stacking the weighted per-candidate coefficient
observations; the first (flux-carrying) basis keeps a constant coefficient,
padded with zero higher-order terms. -/
def getSpatialParameters (S : SpatialKernelSolution) : List (List ℚ) :=
  (List.range S.nBases).map (fun k =>
    if k = 0 then
      polyFit (polyTerms 0) (kObs 0 S.cands) ++
        List.replicate (nSpatialTerms S.order - 1) 0
    else polyFit (polyTerms S.order) (kObs k S.cands))

/-- Modelled from the spec: the spatial background solution, an independent
2-D polynomial fit to the per-candidate background values; a single zero
parameter when background fitting is disabled. -/
def getBgParameters (S : SpatialKernelSolution) : List ℚ :=
  if S.fitForBackground then polyFit (polyTerms S.bgOrder) (bgObs S.cands)
  else [0]

/-- Spec-side definition for the C2 refinement comparison: the general
polynomial solve written out at order 0, following the spec words, to be
compared with the shortcut taken by the solver. -/
def generalOrderZeroSolve (nBases : ℕ) (cands : List SpatialObs) : List ℚ :=
  (List.range nBases).map (fun k =>
    (polyFit (polyTerms 0) (kObs k cands)).getD 0 0)

/-- Evaluation of one fitted spatial coefficient polynomial at a position. -/
def evalSpatialPoly (order : ℕ) (params : List ℚ) (x y : ℚ) : ℚ :=
  (((polyTerms order).zip params).map (fun pv => termEval pv.1 x y * pv.2)).sum

/-- Instantaneous kernel coefficients of the solved spatial kernel at a
position: the constant parameters on the order-0 path, the evaluated
spatial polynomials otherwise. -/
def evalSpatialKernelAt (S : SpatialKernelSolution) (x y : ℚ) : List ℚ :=
  if S.order = 0 then getKernelParameters S
  else (getSpatialParameters S).map
    (fun params => evalSpatialPoly S.order params x y)

/-- Basis kernel set: nb coefficient arrays sharing one odd width and
height, as produced by the basis builder. -/
structure BasisSet (nb : ℕ) where
  width : ℕ
  height : ℕ
  coeffs : Fin nb → ℕ → ℕ → ℚ

/-- One member of the basis as a kernel. -/
def BasisSet.kernel {nb : ℕ} (B : BasisSet nb) (k : Fin nb) : Kernel2D :=
  ⟨B.width, B.height, B.coeffs k⟩

/-- Linear combination of the basis kernels with given coefficients. -/
def BasisSet.combo {nb : ℕ} (B : BasisSet nb) (g : Fin nb → ℚ) : Kernel2D :=
  ⟨B.width, B.height, fun i j => ∑ k, g k * B.coeffs k i j⟩

/-- Modelled from the spec: normal-equations matrix of the single-kernel
least squares of the missing C++ core (BuildSingleKernelVisitor and
StaticKernelSolution): entries are sums over the unmasked stamp pixels of
the weight times two convolved basis images. -/
def skNormalMatrix (nb : ℕ) (basis : Fin nb → Kernel2D) (T : ℤ → ℤ → ℚ)
    (w : ℤ → ℤ → ℚ) (pix : List (ℤ × ℤ)) : Matrix (Fin nb) (Fin nb) ℚ :=
  Matrix.of fun i j => (pix.map (fun p =>
    w p.1 p.2 * convolvePix T (basis i) p.1 p.2 *
      convolvePix T (basis j) p.1 p.2)).sum

/-- Modelled from the spec: right-hand side of the same system, pairing the
science image with each convolved basis image. -/
def skNormalVec (nb : ℕ) (basis : Fin nb → Kernel2D) (T S : ℤ → ℤ → ℚ)
    (w : ℤ → ℤ → ℚ) (pix : List (ℤ × ℤ)) : Fin nb → ℚ :=
  fun i => (pix.map (fun p =>
    w p.1 p.2 * S p.1 p.2 * convolvePix T (basis i) p.1 p.2)).sum

/-- Modelled from the spec: the single-kernel solve without background:
the coefficient vector minimising the weighted squared residual, obtained
through the normal equations. -/
def singleKernelSolve (nb : ℕ) (basis : Fin nb → Kernel2D) (T S : ℤ → ℤ → ℚ)
    (w : ℤ → ℤ → ℚ) (pix : List (ℤ × ℤ)) : Fin nb → ℚ :=
  (matInverse (skNormalMatrix nb basis T w pix)).mulVec
    (skNormalVec nb basis T S w pix)

/-- Flux sum of the kernel given by basis coefficients: the sum that
computeImage returns for the assembled kernel image. -/
def kernelSumOfCoeffs (nb : ℕ) (basis : Fin nb → Kernel2D)
    (c : Fin nb → ℚ) : ℚ :=
  ∑ k, c k * (basis k).kSum

/-- Flux sum of the kernel given by a coefficient list over the basis. -/
def kernelSumOfParams (nb : ℕ) (basis : Fin nb → Kernel2D)
    (params : List ℚ) : ℚ :=
  ∑ k : Fin nb, params.getD k 0 * (basis k).kSum

/-- Template stamp of the flux-recovery scenario: one unit impulse at the
stamp center. -/
def impulseStamp (n : ℕ) : ℤ → ℤ → ℚ :=
  fun x y => if x = ((n / 2 : ℕ) : ℤ) ∧ y = ((n / 2 : ℕ) : ℤ) then 1 else 0

/-- Science stamp of the flux-recovery scenario: the impulse convolved with
a normalised kernel G and scaled by the flux factor kSumIn. -/
def scienceStamp (n : ℕ) (kSumIn : ℚ) (G : Kernel2D) : ℤ → ℤ → ℚ :=
  fun x y => kSumIn * convolvePix (impulseStamp n) G x y

/-- Status of a spatial cell candidate. -/
inductive CandStatus where
  | unknown
  | good
  | bad
deriving DecidableEq, Repr

/-- Modelled from the spec: the stored result of one successful
single-kernel solve of a candidate: coefficient list, kernel image and
difference image. -/
structure KCSolution where
  coeffs : List ℚ
  kernelImg : ℤ → ℤ → ℚ
  diffIm : ℤ → ℤ → ℚ

/-- Modelled from the spec: a kernel candidate owns its stamp pair, status
and, only after a successful single-kernel solve, a solution. -/
structure KernelCandidate where
  xCenter : ℚ
  yCenter : ℚ
  tmi : MaskedImage
  smi : MaskedImage
  status : CandStatus
  solution : Option KCSolution

/-- Error class for operations on a candidate lacking a successful fit. -/
inductive DiffimError where
  | notInitialized
deriving DecidableEq, Repr

/-- A candidate is initialized exactly when it holds a solution. -/
def KernelCandidate.isInitialized (c : KernelCandidate) : Bool :=
  c.solution.isSome

/-- Modelled from the spec: getKernelImage fails with NotInitialized on a
candidate lacking a successful prior fit. -/
def getKernelImage (c : KernelCandidate) : Except DiffimError (ℤ → ℤ → ℚ) :=
  match c.solution with
  | none => Except.error DiffimError.notInitialized
  | some sol => Except.ok sol.kernelImg

/-- Modelled from the spec: getDifferenceImage fails with NotInitialized on
a candidate lacking a successful prior fit. -/
def getDifferenceImage (c : KernelCandidate) :
    Except DiffimError (ℤ → ℤ → ℚ) :=
  match c.solution with
  | none => Except.error DiffimError.notInitialized
  | some sol => Except.ok sol.diffIm

/-- Modelled from the spec: BuildSingleKernelVisitor.processCandidate: build
and solve the normal equations over the stamp pixels with inverse-variance
weights; on success store the coefficients, the kernel image and the
difference image; on a singular system mark the candidate BAD and store
nothing. -/
def buildSingleKernelProcess (nb : ℕ) (B : BasisSet nb)
    (pix : List (ℤ × ℤ)) (c : KernelCandidate) : KernelCandidate :=
  let w : ℤ → ℤ → ℚ := fun x y => 1 / c.smi.var x y
  if (skNormalMatrix nb B.kernel c.tmi.img w pix).det = 0 then
    { c with status := CandStatus.bad }
  else
    let coeffs := singleKernelSolve nb B.kernel c.tmi.img c.smi.img w pix
    { c with
      status := CandStatus.good
      solution := some
        { coeffs := List.ofFn coeffs
          kernelImg := fun x y =>
            if 0 ≤ x ∧ x < (B.width : ℤ) ∧ 0 ≤ y ∧ y < (B.height : ℤ) then
              (B.combo coeffs).coeffs x.toNat y.toNat
            else 0
          diffIm := fun x y => c.smi.img x y -
            convolvePix c.tmi.img (B.combo coeffs) x y } }

/-- Modelled from the spec: counters of the Assessment visitor. -/
structure AssessState where
  nProcessed : ℕ
  nRejected : ℕ
deriving DecidableEq, Repr

/-- Residual of a candidate stamp under a fixed kernel and background. -/
def assessResidual (tmi smi : ℤ → ℤ → ℚ) (K : Kernel2D) (bg : ℚ) :
    ℤ → ℤ → ℚ :=
  fun x y => smi x y - convolvePix tmi K x y - bg

/-- Modelled from the spec: reduced chi square, the variance-normalised
squared residuals summed over the valid pixels and divided by the pixel
count. -/
def reducedChi2 (resid var : ℤ → ℤ → ℚ) (pix : List (ℤ × ℤ)) : ℚ :=
  (pix.map (fun p => resid p.1 p.2 ^ 2 / var p.1 p.2)).sum / pix.length

/-- Reduced chi square of a candidate under the spatial model held fixed:
the spatial kernel and background are evaluated at the candidate center and
the residual is formed over the valid (shrunk) stamp region. -/
def spatialRchi2 (skernel : ℚ → ℚ → Kernel2D) (sbg : ℚ → ℚ → ℚ)
    (c : KernelCandidate) : ℚ :=
  reducedChi2
    (assessResidual c.tmi.img c.smi.img (skernel c.xCenter c.yCenter)
      (sbg c.xCenter c.yCenter))
    c.smi.var
    (boxPixels ((skernel c.xCenter c.yCenter).shrinkBBox c.smi.bbox))

/-- Modelled from the spec: AssessSpatialKernelVisitor.processCandidate.
An uninitialized candidate is marked BAD without being counted; otherwise
the candidate is counted as processed and set to GOOD when its reduced chi
square under the fixed spatial model is at most the threshold, and to BAD
(counted as rejected) otherwise. -/
def assessProcessCandidate (skernel : ℚ → ℚ → Kernel2D)
    (sbg : ℚ → ℚ → ℚ) (thresh : ℚ) (st : AssessState)
    (c : KernelCandidate) : AssessState × KernelCandidate :=
  if c.isInitialized = false then (st, { c with status := CandStatus.bad })
  else if spatialRchi2 skernel sbg c ≤ thresh then
    (⟨st.nProcessed + 1, st.nRejected⟩, { c with status := CandStatus.good })
  else
    (⟨st.nProcessed + 1, st.nRejected + 1⟩,
      { c with status := CandStatus.bad })

/-- Assessment visitor pass over a candidate list, threading the
counters. -/
def assessVisit (skernel : ℚ → ℚ → Kernel2D) (sbg : ℚ → ℚ → ℚ)
    (thresh : ℚ) (st : AssessState) (cands : List KernelCandidate) :
    AssessState × List KernelCandidate :=
  match cands with
  | [] => (st, [])
  | c :: rest =>
      let r1 := assessProcessCandidate skernel sbg thresh st c
      let r2 := assessVisit skernel sbg thresh r1.1 rest
      (r2.1, r1.2 :: r2.2)

/-- Concrete one-pixel masked image holding a unit impulse with unit
variance. -/
def impulseMi : MaskedImage :=
  ⟨impulseStamp 1, fun _ _ => 1, mskZero, ⟨0, 0, 0, 0⟩⟩

/-- Concrete unsolved candidate for the error-handling scenario. -/
def candC7 : KernelCandidate :=
  ⟨0, 0, impulseMi, impulseMi, CandStatus.unknown, none⟩

/-- Concrete initialized candidate for the assessment scenario. -/
def candAssess : KernelCandidate :=
  ⟨0, 0, impulseMi, impulseMi, CandStatus.unknown,
    some ⟨[], fun _ _ => 0, fun _ _ => 0⟩⟩

/-- Bitwise AND distributes over bitwise OR on natural numbers. -/
theorem land_lor_distrib (a b m : ℕ) :
    (a ||| b) &&& m = (a &&& m) ||| (b &&& m) := by
  refine Nat.eq_of_testBit_eq fun i => ?_
  simp only [Nat.testBit_land, Nat.testBit_lor]
  cases a.testBit i <;> cases b.testBit i <;> cases m.testBit i <;> rfl

/-- Bitwise OR of naturals is zero exactly when both arguments are zero. -/
theorem lor_eq_zero_iff (a b : ℕ) : a ||| b = 0 ↔ a = 0 ∧ b = 0 := by
  constructor
  · intro h
    constructor
    · refine Nat.eq_of_testBit_eq fun i => ?_
      have hbit := congrArg (fun n => Nat.testBit n i) h
      simp only [Nat.testBit_lor, Nat.zero_testBit] at hbit ⊢
      exact (Bool.or_eq_false_iff.mp hbit).1
    · refine Nat.eq_of_testBit_eq fun i => ?_
      have hbit := congrArg (fun n => Nat.testBit n i) h
      simp only [Nat.testBit_lor, Nat.zero_testBit] at hbit ⊢
      exact (Bool.or_eq_false_iff.mp hbit).2
  · rintro ⟨rfl, rfl⟩
    rfl

/-- Folding bitwise OR over a list and masking gives zero exactly when every
element masks to zero. -/
theorem foldr_lor_land_eq_zero (l : List ℕ) (m : ℕ) :
    (l.foldr (fun a acc => a ||| acc) 0) &&& m = 0 ↔ ∀ a ∈ l, a &&& m = 0 := by
  induction l with
  | nil => simp [Nat.zero_and]
  | cons a t ih =>
      simp only [List.foldr_cons, List.mem_cons, land_lor_distrib, lor_eq_zero_iff]
      constructor
      · rintro ⟨ha, ht⟩ x hx
        rcases hx with rfl | hx
        · exact ha
        · exact ih.mp ht x hx
      · intro h
        exact ⟨h a (Or.inl rfl), ih.mpr fun x hx => h x (Or.inr hx)⟩

/-- Membership in an integer range list. -/
theorem mem_intRange (lo hi z : ℤ) : z ∈ intRange lo hi ↔ lo ≤ z ∧ z ≤ hi := by
  simp only [intRange, List.mem_map, List.mem_range]
  constructor
  · rintro ⟨i, hi', rfl⟩
    omega
  · intro h
    exact ⟨(z - lo).toNat, by omega, by omega⟩

/-- Membership in the pixel list of a box is containment in the box. -/
theorem mem_boxPixels (b : Box2I) (p : ℤ × ℤ) :
    p ∈ boxPixels b ↔ b.containsPt p.1 p.2 := by
  rcases p with ⟨x, y⟩
  simp only [boxPixels, List.mem_bind, List.mem_map, Prod.mk.injEq, Box2I.containsPt]
  constructor
  · rintro ⟨x', hx', y', hy', rfl, rfl⟩
    rw [mem_intRange] at hx' hy'
    exact ⟨hx'.1, hx'.2, hy'.1, hy'.2⟩
  · rintro ⟨h1, h2, h3, h4⟩
    exact ⟨x, (mem_intRange _ _ _).mpr ⟨h1, h2⟩, y, (mem_intRange _ _ _).mpr ⟨h3, h4⟩, rfl, rfl⟩

/-- Masking the OR of a boxful of mask pixels gives zero exactly when every
pixel of the box masks to zero. -/
theorem findSetBits_land_eq_zero (msk : ℤ → ℤ → ℕ) (b : Box2I) (m : ℕ) :
    findSetBits msk b &&& m = 0 ↔
      ∀ x y : ℤ, b.containsPt x y → msk x y &&& m = 0 := by
  unfold findSetBits
  rw [foldr_lor_land_eq_zero]
  constructor
  · intro h x y hxy
    exact h (msk x y) (List.mem_map.mpr ⟨(x, y), (mem_boxPixels b (x, y)).mpr hxy, rfl⟩)
  · intro h a ha
    rcases List.mem_map.mp ha with ⟨p, hp, rfl⟩
    exact h p.1 p.2 ((mem_boxPixels b p).mp hp)

/-- Closed form of the grown and clipped stamp box for a center inside the
exposure box: the box stays centered on the source and its half width on
each axis is the grow radius capped by the distance to the nearest edge. -/
theorem growSourceBBox_centered (bbox : Box2I) (g cx cy : ℤ)
    (hx : bbox.minX ≤ cx ∧ cx ≤ bbox.maxX)
    (hy : bbox.minY ≤ cy ∧ cy ≤ bbox.maxY) :
    growSourceBBox bbox g cx cy =
      ⟨cx - min g (min (cx - bbox.minX) (bbox.maxX - cx)),
       cy - min g (min (cy - bbox.minY) (bbox.maxY - cy)),
       cx + min g (min (cx - bbox.minX) (bbox.maxX - cx)),
       cy + min g (min (cy - bbox.minY) (bbox.maxY - cy))⟩ := by
  simp only [growSourceBBox]
  split_ifs <;> simp only [Box2I.mk.injEq] <;> omega

/-- For a nonnegative grow radius and a center inside the exposure box, the
grown and clipped stamp box is nonempty and contained in the exposure box. -/
theorem growSourceBBox_props (bbox : Box2I) (g cx cy : ℤ) (hg : 0 ≤ g)
    (hx : bbox.minX ≤ cx ∧ cx ≤ bbox.maxX)
    (hy : bbox.minY ≤ cy ∧ cy ≤ bbox.maxY) :
    (growSourceBBox bbox g cx cy).minX ≤ (growSourceBBox bbox g cx cy).maxX ∧
    (growSourceBBox bbox g cx cy).minY ≤ (growSourceBBox bbox g cx cy).maxY ∧
    bbox.containsBox (growSourceBBox bbox g cx cy) := by
  rw [growSourceBBox_centered bbox g cx cy hx hy]
  unfold Box2I.containsBox
  dsimp only
  omega

/-- Any entry produced by processSource records the processed source, carries
the grown stamp box of that source, and witnesses that the source center lies
inside the science box. -/
theorem processSource_some_elim (tExp sExp : MaskedImage) (badBitMask : ℕ)
    (g : ℤ) (t : SourceRecord) (e : FootprintEntry)
    (h : processSource tExp sExp badBitMask g t = some e) :
    e.source = t ∧
    e.fpBBox = growSourceBBox sExp.bbox g t.centerX t.centerY ∧
    sExp.bbox.minX ≤ t.centerX ∧ t.centerX ≤ sExp.bbox.maxX ∧
    sExp.bbox.minY ≤ t.centerY ∧ t.centerY ≤ sExp.bbox.maxY := by
  unfold processSource at h
  dsimp only at h
  split_ifs at h with h1 h2 h3 h4 h5
  push_neg at h1 h2
  cases h
  exact ⟨rfl, rfl, h1.1, h1.2, h2.1, h2.2⟩

/-- Sources whose center falls outside the science box are dropped. -/
theorem processSource_center_out (tExp sExp : MaskedImage) (badBitMask : ℕ)
    (g : ℤ) (t : SourceRecord)
    (h : t.centerX < sExp.bbox.minX ∨ t.centerX > sExp.bbox.maxX ∨
         t.centerY < sExp.bbox.minY ∨ t.centerY > sExp.bbox.maxY) :
    processSource tExp sExp badBitMask g t = none := by
  unfold processSource
  dsimp only
  split_ifs with h1 h2 <;> first | rfl | (exfalso; rcases h with h | h | h | h <;> omega)

/-- For a nonnegative grow radius, a source center inside the science box and
a template that covers the grown stamp, processSource accepts the source
exactly when no pixel of the grown stamp carries a configured bad mask bit in
either the template or the science mask. -/
theorem processSource_eq_some_iff (tExp sExp : MaskedImage) (badBitMask : ℕ)
    (g : ℤ) (t : SourceRecord) (hg : 0 ≤ g)
    (hx : sExp.bbox.minX ≤ t.centerX ∧ t.centerX ≤ sExp.bbox.maxX)
    (hy : sExp.bbox.minY ≤ t.centerY ∧ t.centerY ≤ sExp.bbox.maxY)
    (ht : tExp.bbox.containsBox (growSourceBBox sExp.bbox g t.centerX t.centerY)) :
    processSource tExp sExp badBitMask g t
        = some ⟨t, growSourceBBox sExp.bbox g t.centerX t.centerY⟩
      ↔ ∀ x y : ℤ,
          (growSourceBBox sExp.bbox g t.centerX t.centerY).containsPt x y →
            tExp.msk x y &&& badBitMask = 0 ∧ sExp.msk x y &&& badBitMask = 0 := by
  obtain ⟨hne1, hne2, hsub⟩ := growSourceBBox_props sExp.bbox g t.centerX t.centerY hg hx hy
  unfold processSource
  dsimp only
  rw [if_neg (by omega), if_neg (by omega), if_neg (by omega), if_neg (by
    simp only [not_not]
    exact ⟨ht, hsub⟩)]
  constructor
  · intro h x y hxy
    split_ifs at h with hbad
    push_neg at hbad
    exact ⟨(findSetBits_land_eq_zero _ _ _).mp hbad.1 x y hxy,
           (findSetBits_land_eq_zero _ _ _).mp hbad.2 x y hxy⟩
  · intro h
    rw [if_neg]
    push_neg
    exact ⟨(findSetBits_land_eq_zero _ _ _).mpr fun x y hxy => (h x y hxy).1,
           (findSetBits_land_eq_zero _ _ _).mpr fun x y hxy => (h x y hxy).2⟩

/-- Setting a mask bit outside the configured bad set changes no bad-bit
test over any box. -/
theorem findSetBits_setMaskBit_land_good (msk : ℤ → ℤ → ℕ) (qx qy : ℤ)
    (bit bad : ℕ) (box : Box2I) (hbit : bit &&& bad = 0) :
    (findSetBits (fun x y => if x = qx ∧ y = qy then msk x y ||| bit
        else msk x y) box &&& bad = 0)
      ↔ findSetBits msk box &&& bad = 0 := by
  rw [findSetBits_land_eq_zero, findSetBits_land_eq_zero]
  constructor
  · intro h x y hxy
    have hx := h x y hxy
    by_cases hq : x = qx ∧ y = qy
    · rw [if_pos hq, land_lor_distrib] at hx
      exact ((lor_eq_zero_iff _ _).mp hx).1
    · rwa [if_neg hq] at hx
  · intro h x y hxy
    by_cases hq : x = qx ∧ y = qy
    · rw [if_pos hq, land_lor_distrib, hbit, h x y hxy]
      rfl
    · rw [if_neg hq]
      exact h x y hxy

/-- Setting a configured bad mask bit at a pixel makes the bad-bit test of a
box fail exactly when the box contains that pixel or already failed. -/
theorem findSetBits_setMaskBit_land_bad (msk : ℤ → ℤ → ℕ) (qx qy : ℤ)
    (bit bad : ℕ) (box : Box2I) (hbit : bit &&& bad ≠ 0) :
    (findSetBits (fun x y => if x = qx ∧ y = qy then msk x y ||| bit
        else msk x y) box &&& bad = 0)
      ↔ (findSetBits msk box &&& bad = 0 ∧ ¬box.containsPt qx qy) := by
  rw [findSetBits_land_eq_zero, findSetBits_land_eq_zero]
  constructor
  · intro h
    constructor
    · intro x y hxy
      have hx := h x y hxy
      by_cases hq : x = qx ∧ y = qy
      · rw [if_pos hq, land_lor_distrib] at hx
        exact ((lor_eq_zero_iff _ _).mp hx).1
      · rwa [if_neg hq] at hx
    · intro hq
      have hx := h qx qy hq
      rw [if_pos ⟨rfl, rfl⟩, land_lor_distrib] at hx
      exact hbit ((lor_eq_zero_iff _ _).mp hx).2
  · rintro ⟨h, hq⟩ x y hxy
    rw [if_neg]
    · exact h x y hxy
    · rintro ⟨rfl, rfl⟩
      exact hq hxy

/-- Setting a mask bit outside the configured bad set in the template image
leaves the decision of processSource unchanged for every source. -/
theorem processSource_setMaskBit_good (tExp sExp : MaskedImage)
    (badBitMask : ℕ) (g : ℤ) (t : SourceRecord) (qx qy : ℤ) (bit : ℕ)
    (hbit : bit &&& badBitMask = 0) :
    processSource (setMaskBit tExp qx qy bit) sExp badBitMask g t
      = processSource tExp sExp badBitMask g t := by
  unfold processSource setMaskBit
  dsimp only
  refine if_congr Iff.rfl rfl (if_congr Iff.rfl rfl (if_congr Iff.rfl rfl
    (if_congr Iff.rfl rfl (if_congr ?_ rfl rfl))))
  exact or_congr (not_congr (findSetBits_setMaskBit_land_good tExp.msk qx qy
    bit badBitMask _ hbit)) Iff.rfl

/-- Setting a configured bad mask bit at one template pixel filters a
processSource result through containment of that pixel in the stamp box. -/
theorem processSource_setMaskBit_bad (tExp sExp : MaskedImage)
    (badBitMask : ℕ) (g : ℤ) (t : SourceRecord) (qx qy : ℤ) (bit : ℕ)
    (hbit : bit &&& badBitMask ≠ 0) :
    processSource (setMaskBit tExp qx qy bit) sExp badBitMask g t
      = (processSource tExp sExp badBitMask g t).bind
          (fun e => if e.fpBBox.containsPt qx qy then none else some e) := by
  unfold processSource setMaskBit
  dsimp only
  simp only [apply_ite (fun o : Option FootprintEntry => o.bind
    (fun e => if e.fpBBox.containsPt qx qy then none else some e)),
    Option.none_bind, Option.some_bind]
  refine if_congr Iff.rfl rfl (if_congr Iff.rfl rfl (if_congr Iff.rfl rfl
    (if_congr Iff.rfl rfl ?_)))
  have hiff := findSetBits_setMaskBit_land_bad tExp.msk qx qy bit badBitMask
    (growSourceBBox sExp.bbox g t.centerX t.centerY) hbit
  by_cases hS : findSetBits sExp.msk
      (growSourceBBox sExp.bbox g t.centerX t.centerY) &&& badBitMask = 0
  · by_cases hA : findSetBits tExp.msk
        (growSourceBBox sExp.bbox g t.centerX t.centerY) &&& badBitMask = 0
    · by_cases hq : (growSourceBBox sExp.bbox g
          t.centerX t.centerY).containsPt qx qy
      · rw [if_pos (Or.inl (fun hz => (hiff.mp hz).2 hq)),
          if_neg (by push_neg; exact ⟨hA, hS⟩), if_pos hq]
      · rw [if_neg (by push_neg; exact ⟨hiff.mpr ⟨hA, hq⟩, hS⟩),
          if_neg (by push_neg; exact ⟨hA, hS⟩), if_neg hq]
    · rw [if_pos (Or.inl (fun hz => hA (hiff.mp hz).1)), if_pos (Or.inl hA)]
  · rw [if_pos (Or.inr hS), if_pos (Or.inr hS)]

/-- On an input list of genuine source records the full function succeeds and
returns exactly the accumulated footprint list. -/
theorem sourceToFootprintList_map_src (sources : List SourceRecord)
    (tExp sExp : MaskedImage) (kernelSize : ℚ) (cfg : DetectionConfig) :
    sourceToFootprintList (sources.map PyInput.src) tExp sExp kernelSize cfg
      = Except.ok (footprintListOf sources tExp sExp (badBitMaskOf cfg)
          (fpGrowPixOf cfg kernelSize)) := by
  induction sources with
  | nil => rfl
  | cons s rest ih =>
      simp only [List.map_cons, sourceToFootprintList, ih, footprintListOf]

/-- Closed witness for C1 at a concrete template, science image, kernel and
background. -/
theorem convolveAndSubtract_diff_eq_witness :
    (convolveAndSubtract
        ⟨fun _ _ => 2, fun _ _ => 1, fun _ _ => 0, ⟨0, 0, 10, 10⟩⟩
        ⟨fun _ _ => 5, fun _ _ => 1, fun _ _ => 0, ⟨0, 0, 10, 10⟩⟩
        ⟨3, 3, fun _ _ => 0⟩ (fun _ _ => 7)).img 5 5
      = 5 - convolvePix (fun _ _ => 2) ⟨3, 3, fun _ _ => 0⟩ 5 5 - 7 := by
  have h := convolveAndSubtract_diff_eq
    ⟨fun _ _ => 2, fun _ _ => 1, fun _ _ => 0, ⟨0, 0, 10, 10⟩⟩
    ⟨fun _ _ => 5, fun _ _ => 1, fun _ _ => 0, ⟨0, 0, 10, 10⟩⟩
    ⟨3, 3, fun _ _ => 0⟩ (fun _ _ => 7) 7 5 5 rfl (by decide)
  exact h.1

/-- Membership in the accumulated footprint list is acceptance of the source
by processSource. -/
theorem mem_footprintListOf (sources : List SourceRecord)
    (tExp sExp : MaskedImage) (badBitMask : ℕ) (g : ℤ) (e : FootprintEntry) :
    e ∈ footprintListOf sources tExp sExp badBitMask g ↔
      ∃ t ∈ sources, processSource tExp sExp badBitMask g t = some e := by
  induction sources with
  | nil => simp [footprintListOf]
  | cons s rest ih =>
      simp only [footprintListOf, List.mem_append, ih, List.mem_cons]
      constructor
      · rintro (he | ⟨t, htr, hte⟩)
        · exact ⟨s, Or.inl rfl, Option.mem_def.mp (Option.mem_toList.mp he)⟩
        · exact ⟨t, Or.inr htr, hte⟩
      · rintro ⟨t, (rfl | htr), hte⟩
        · exact Or.inl (Option.mem_toList.mpr (Option.mem_def.mpr hte))
        · exact Or.inr ⟨t, htr, hte⟩

/-- Setting a configured bad mask bit at one template pixel filters the
accumulated footprint list by stamp boxes avoiding that pixel. -/
theorem footprintListOf_setMaskBit_bad (sources : List SourceRecord)
    (tExp sExp : MaskedImage) (badBitMask : ℕ) (g qx qy : ℤ) (bit : ℕ)
    (hbit : bit &&& badBitMask ≠ 0) :
    footprintListOf sources (setMaskBit tExp qx qy bit) sExp badBitMask g
      = (footprintListOf sources tExp sExp badBitMask g).filter
          (fun e => !decide (e.fpBBox.containsPt qx qy)) := by
  induction sources with
  | nil => rfl
  | cons s rest ih =>
      simp only [footprintListOf, List.filter_append, ih]
      congr 1
      rw [processSource_setMaskBit_bad tExp sExp badBitMask g s qx qy bit hbit]
      cases hps : processSource tExp sExp badBitMask g s with
      | none => rfl
      | some e =>
          by_cases hq : e.fpBBox.containsPt qx qy
          · simp [hq]
          · simp [hq]

/-- Setting a mask bit outside the configured bad set in the template leaves
the accumulated footprint list unchanged. -/
theorem footprintListOf_setMaskBit_good (sources : List SourceRecord)
    (tExp sExp : MaskedImage) (badBitMask : ℕ) (g qx qy : ℤ) (bit : ℕ)
    (hbit : bit &&& badBitMask = 0) :
    footprintListOf sources (setMaskBit tExp qx qy bit) sExp badBitMask g
      = footprintListOf sources tExp sExp badBitMask g := by
  induction sources with
  | nil => rfl
  | cons s rest ih =>
      simp only [footprintListOf, ih,
        processSource_setMaskBit_good tExp sExp badBitMask g s qx qy bit hbit]

/-- C10: sourceToFootprintList raises the RuntimeError for the first input
element that is not an afwTable.SourceRecord, whatever follows it; on a list
of genuine source records it raises no error. -/
theorem sourceToFootprintList_type_error (pre rest : List PyInput)
    (tExp sExp : MaskedImage) (kernelSize : ℚ) (cfg : DetectionConfig)
    (hpre : ∀ c ∈ pre, ∃ s, c = PyInput.src s) :
    sourceToFootprintList (pre ++ PyInput.nonSource :: rest)
        tExp sExp kernelSize cfg = Except.error candTypeErrMsg
      ∧ ∀ sources : List SourceRecord, ∃ outAll,
          sourceToFootprintList (sources.map PyInput.src)
            tExp sExp kernelSize cfg = Except.ok outAll := by
  constructor
  · revert hpre
    induction pre with
    | nil => intro _; rfl
    | cons c pre ih =>
        intro hpre
        obtain ⟨s, rfl⟩ := hpre c (List.mem_cons_self _ _)
        have ih2 := ih (fun c hc => hpre c (List.mem_cons_of_mem _ hc))
        simp only [List.cons_append, sourceToFootprintList, List.append_eq]
        rw [ih2]
  · intro sources
    exact ⟨_, sourceToFootprintList_map_src sources tExp sExp kernelSize cfg⟩

/-- Closed witness for C10 at a concrete prefix, offending element and
genuine source list. -/
theorem sourceToFootprintList_type_error_witness :
    sourceToFootprintList
        ([PyInput.src ⟨7, 50, 50⟩] ++ PyInput.nonSource :: [PyInput.src ⟨8, 60, 60⟩])
        exp100 exp100 1 cfgGrow10 = Except.error candTypeErrMsg
      ∧ ∀ sources : List SourceRecord, ∃ outAll,
          sourceToFootprintList (sources.map PyInput.src)
            exp100 exp100 1 cfgGrow10 = Except.ok outAll := by
  refine sourceToFootprintList_type_error [PyInput.src ⟨7, 50, 50⟩]
    [PyInput.src ⟨8, 60, 60⟩] exp100 exp100 1 cfgGrow10 ?_
  intro c hc
  rw [List.mem_singleton] at hc
  exact ⟨⟨7, 50, 50⟩, hc⟩

/-- C9 counterexample: on a 100 by 100 science exposure with grow radius 10,
a source centered at (2, 50) is accepted with a footprint box of width 5,
not 2 times 10 plus 1 = 21: near an edge the box is shrunk symmetrically
about the center rather than shifted inward at full size. -/
theorem sourceToFootprintList_fpBBox_size_cex :
    sourceToFootprintList [PyInput.src ⟨1, 2, 50⟩] exp100 exp100 1 cfgGrow10
        = Except.ok [⟨⟨1, 2, 50⟩, ⟨0, 40, 4, 60⟩⟩]
      ∧ fpGrowPixOf cfgGrow10 1 = 10
      ∧ exp100.bbox.width = 100
      ∧ (2 * 10 + 1 : ℤ) ≤ 100
      ∧ Box2I.width ⟨0, 40, 4, 60⟩ = 5
      ∧ (5 : ℤ) ≠ 2 * 10 + 1 :=
  ⟨rfl, rfl, rfl, by decide, rfl, by decide⟩

/-- C9 amended: every entry returned by sourceToFootprintList has a footprint
box centered on the source center whose half extent on each axis is the grow
radius capped by the distance to the nearest science edge; the box lies
inside the science box, and has width and height exactly 2 fpGrowPix + 1
when the ungrown box already fits; sources whose center falls outside the
science box are dropped. -/
theorem sourceToFootprintList_fpBBox_geometry (tExp sExp : MaskedImage)
    (kernelSize : ℚ) (cfg : DetectionConfig) (sources : List SourceRecord)
    (out : List FootprintEntry)
    (hout : sourceToFootprintList (sources.map PyInput.src) tExp sExp
        kernelSize cfg = Except.ok out)
    (hg : 0 ≤ fpGrowPixOf cfg kernelSize) :
    (∀ e ∈ out,
      e.fpBBox =
        ⟨e.source.centerX - min (fpGrowPixOf cfg kernelSize)
            (min (e.source.centerX - sExp.bbox.minX)
              (sExp.bbox.maxX - e.source.centerX)),
         e.source.centerY - min (fpGrowPixOf cfg kernelSize)
            (min (e.source.centerY - sExp.bbox.minY)
              (sExp.bbox.maxY - e.source.centerY)),
         e.source.centerX + min (fpGrowPixOf cfg kernelSize)
            (min (e.source.centerX - sExp.bbox.minX)
              (sExp.bbox.maxX - e.source.centerX)),
         e.source.centerY + min (fpGrowPixOf cfg kernelSize)
            (min (e.source.centerY - sExp.bbox.minY)
              (sExp.bbox.maxY - e.source.centerY))⟩ ∧
      e.fpBBox.isContainedBy sExp.bbox ∧
      ((sExp.bbox.minX + fpGrowPixOf cfg kernelSize ≤ e.source.centerX ∧
        e.source.centerX + fpGrowPixOf cfg kernelSize ≤ sExp.bbox.maxX ∧
        sExp.bbox.minY + fpGrowPixOf cfg kernelSize ≤ e.source.centerY ∧
        e.source.centerY + fpGrowPixOf cfg kernelSize ≤ sExp.bbox.maxY) →
        e.fpBBox.width = 2 * fpGrowPixOf cfg kernelSize + 1 ∧
        e.fpBBox.height = 2 * fpGrowPixOf cfg kernelSize + 1)) ∧
    (∀ t ∈ sources,
      (t.centerX < sExp.bbox.minX ∨ t.centerX > sExp.bbox.maxX ∨
       t.centerY < sExp.bbox.minY ∨ t.centerY > sExp.bbox.maxY) →
      ∀ e ∈ out, e.source ≠ t) := by
  have hlist := sourceToFootprintList_map_src sources tExp sExp kernelSize cfg
  rw [hout] at hlist
  have hout2 : out = footprintListOf sources tExp sExp (badBitMaskOf cfg)
      (fpGrowPixOf cfg kernelSize) := Except.ok.inj hlist
  subst hout2
  constructor
  · intro e he
    obtain ⟨t, _, hpt⟩ := (mem_footprintListOf _ _ _ _ _ _).mp he
    obtain ⟨hsrc, hbox, hx1, hx2, hy1, hy2⟩ :=
      processSource_some_elim _ _ _ _ _ _ hpt
    subst hsrc
    rw [hbox, growSourceBBox_centered sExp.bbox _ _ _ ⟨hx1, hx2⟩ ⟨hy1, hy2⟩]
    refine ⟨rfl, ?_, ?_⟩
    · intro x y hxy
      unfold Box2I.containsPt at hxy ⊢
      dsimp only at hxy ⊢
      omega
    · intro hfit
      unfold Box2I.width Box2I.height
      dsimp only
      omega
  · intro t htl hcout e he hes
    obtain ⟨t2, _, hpt⟩ := (mem_footprintListOf _ _ _ _ _ _).mp he
    obtain ⟨hsrc, _⟩ := processSource_some_elim _ _ _ _ _ _ hpt
    have ht2 : t2 = t := by rw [← hsrc, hes]
    rw [ht2, processSource_center_out tExp sExp _ _ t hcout] at hpt
    exact Option.noConfusion hpt

/-- Closed witness for the C9 amended theorem at a concrete accepted
source. -/
theorem sourceToFootprintList_fpBBox_geometry_witness :
    (⟨⟨1, 2, 50⟩, ⟨0, 40, 4, 60⟩⟩ : FootprintEntry).fpBBox.isContainedBy
      exp100.bbox :=
  ((sourceToFootprintList_fpBBox_geometry exp100 exp100 1 cfgGrow10
      [⟨1, 2, 50⟩] [⟨⟨1, 2, 50⟩, ⟨0, 40, 4, 60⟩⟩] rfl (by decide)).1
    ⟨⟨1, 2, 50⟩, ⟨0, 40, 4, 60⟩⟩ (List.mem_singleton.mpr rfl)).2.1

/-- C5 counterexample: two accepted sources have overlapping stamp boxes; a
single configured bad mask bit set at a template pixel of the overlap
removes both candidates from the output, not exactly the one candidate in
whose stamp region the bit was placed. -/
theorem sourceToFootprintList_mask_cex :
    sourceToFootprintList [PyInput.src ⟨1, 3, 0⟩, PyInput.src ⟨2, 5, 0⟩]
        expRow expRow 1 cfgGrow2
      = Except.ok [⟨⟨1, 3, 0⟩, ⟨1, 0, 5, 0⟩⟩, ⟨⟨2, 5, 0⟩, ⟨3, 0, 7, 0⟩⟩]
    ∧ (⟨1, 0, 5, 0⟩ : Box2I).containsPt 4 0
    ∧ (⟨3, 0, 7, 0⟩ : Box2I).containsPt 4 0
    ∧ sourceToFootprintList [PyInput.src ⟨1, 3, 0⟩, PyInput.src ⟨2, 5, 0⟩]
        (setMaskBit expRow 4 0 1) expRow 1 cfgGrow2
      = Except.ok [] :=
  ⟨rfl, by decide, by decide, rfl⟩

/-- C5 amended: for a source whose center lies in the science box and whose
grown stamp can be cut from the template, sourceToFootprintList accepts the
source exactly when no pixel of the grown stamp box carries a configured bad
mask bit in either the template or the science mask; setting a configured
bad bit at one template pixel removes exactly the previously accepted
candidates whose stamp boxes contain that pixel (so exactly one candidate
when no other accepted stamp overlaps it), and setting a bit outside the
configured bad set changes nothing. -/
theorem sourceToFootprintList_mask_rejection (tExp sExp : MaskedImage)
    (kernelSize : ℚ) (cfg : DetectionConfig) (sources : List SourceRecord)
    (s : SourceRecord) (out : List FootprintEntry)
    (hout : sourceToFootprintList (sources.map PyInput.src) tExp sExp
        kernelSize cfg = Except.ok out)
    (hs : s ∈ sources)
    (hg : 0 ≤ fpGrowPixOf cfg kernelSize)
    (hx : sExp.bbox.minX ≤ s.centerX ∧ s.centerX ≤ sExp.bbox.maxX)
    (hy : sExp.bbox.minY ≤ s.centerY ∧ s.centerY ≤ sExp.bbox.maxY)
    (ht : tExp.bbox.containsBox (growSourceBBox sExp.bbox
        (fpGrowPixOf cfg kernelSize) s.centerX s.centerY)) :
    ((∃ e ∈ out, e.source = s) ↔
      (∀ x y : ℤ,
        (growSourceBBox sExp.bbox (fpGrowPixOf cfg kernelSize)
            s.centerX s.centerY).containsPt x y →
          tExp.msk x y &&& badBitMaskOf cfg = 0 ∧
          sExp.msk x y &&& badBitMaskOf cfg = 0)) ∧
    (∀ (qx qy : ℤ) (bit : ℕ), bit &&& badBitMaskOf cfg ≠ 0 →
      sourceToFootprintList (sources.map PyInput.src)
          (setMaskBit tExp qx qy bit) sExp kernelSize cfg
        = Except.ok (out.filter
            (fun e => !decide (e.fpBBox.containsPt qx qy)))) ∧
    (∀ (qx qy : ℤ) (bit : ℕ), bit &&& badBitMaskOf cfg = 0 →
      sourceToFootprintList (sources.map PyInput.src)
          (setMaskBit tExp qx qy bit) sExp kernelSize cfg
        = Except.ok out) := by
  have hlist := sourceToFootprintList_map_src sources tExp sExp kernelSize cfg
  rw [hout] at hlist
  have hout2 : out = footprintListOf sources tExp sExp (badBitMaskOf cfg)
      (fpGrowPixOf cfg kernelSize) := Except.ok.inj hlist
  subst hout2
  refine ⟨⟨?_, ?_⟩, ?_, ?_⟩
  · rintro ⟨e, he, hes⟩
    obtain ⟨t, _, hpt⟩ := (mem_footprintListOf _ _ _ _ _ _).mp he
    obtain ⟨esrc, ebox⟩ := e
    obtain ⟨hsrc, hbox, _, _, _, _⟩ := processSource_some_elim _ _ _ _ _ _ hpt
    dsimp only at hsrc hbox hes
    subst hsrc
    subst hbox
    rw [hes] at hpt
    exact (processSource_eq_some_iff tExp sExp (badBitMaskOf cfg)
      (fpGrowPixOf cfg kernelSize) s hg hx hy ht).mp hpt
  · intro hcond
    refine ⟨⟨s, growSourceBBox sExp.bbox (fpGrowPixOf cfg kernelSize)
      s.centerX s.centerY⟩, ?_, rfl⟩
    exact (mem_footprintListOf _ _ _ _ _ _).mpr
      ⟨s, hs, (processSource_eq_some_iff tExp sExp (badBitMaskOf cfg)
        (fpGrowPixOf cfg kernelSize) s hg hx hy ht).mpr hcond⟩
  · intro qx qy bit hbit
    rw [sourceToFootprintList_map_src,
      footprintListOf_setMaskBit_bad sources tExp sExp (badBitMaskOf cfg)
        (fpGrowPixOf cfg kernelSize) qx qy bit hbit]
  · intro qx qy bit hbit
    rw [sourceToFootprintList_map_src,
      footprintListOf_setMaskBit_good sources tExp sExp (badBitMaskOf cfg)
        (fpGrowPixOf cfg kernelSize) qx qy bit hbit]

/-- Closed witness for the C5 amended theorem at a concrete accepted
source. -/
theorem sourceToFootprintList_mask_rejection_witness :
    (∃ e ∈ [(⟨⟨1, 3, 0⟩, ⟨1, 0, 5, 0⟩⟩ : FootprintEntry),
            ⟨⟨2, 5, 0⟩, ⟨3, 0, 7, 0⟩⟩],
        e.source = (⟨1, 3, 0⟩ : SourceRecord)) ↔
      (∀ x y : ℤ,
        (growSourceBBox expRow.bbox (fpGrowPixOf cfgGrow2 1) 3 0).containsPt
            x y →
          expRow.msk x y &&& badBitMaskOf cfgGrow2 = 0 ∧
          expRow.msk x y &&& badBitMaskOf cfgGrow2 = 0) :=
  (sourceToFootprintList_mask_rejection expRow expRow 1 cfgGrow2
    [⟨1, 3, 0⟩, ⟨2, 5, 0⟩] ⟨1, 3, 0⟩
    [⟨⟨1, 3, 0⟩, ⟨1, 0, 5, 0⟩⟩, ⟨⟨2, 5, 0⟩, ⟨3, 0, 7, 0⟩⟩]
    rfl (by decide) (by decide) (by decide) (by decide) (by decide)).1

/-- Stepping the spatial order adds one more degree of monomials. -/
theorem nSpatialTerms_succ (o : ℕ) :
    nSpatialTerms (o + 1) = nSpatialTerms o + (o + 2) := by
  unfold nSpatialTerms
  have h : (o + 1 + 1) * (o + 1 + 2) = (o + 1) * (o + 2) + 2 * (o + 2) := by
    ring
  rw [h, Nat.add_mul_div_left _ _ (by norm_num)]

/-- A 2-D polynomial has at least its constant term. -/
theorem nSpatialTerms_pos (o : ℕ) : 1 ≤ nSpatialTerms o := by
  unfold nSpatialTerms
  rw [Nat.le_div_iff_mul_le (by norm_num)]
  calc 1 * 2 = 1 * 2 := rfl
  _ ≤ (o + 1) * (o + 2) := Nat.mul_le_mul (by omega) (by omega)

/-- The monomial list has exactly the closed-form number of terms. -/
theorem polyTerms_length (o : ℕ) : (polyTerms o).length = nSpatialTerms o := by
  induction o with
  | zero => rfl
  | succ o ih =>
      show (polyTerms o ++ degTerms (o + 1)).length = nSpatialTerms (o + 1)
      rw [List.length_append, ih, nSpatialTerms_succ]
      congr 1
      simp [degTerms]

/-- A polynomial fit returns one coefficient per monomial. -/
theorem polyFit_length (ts : List (ℕ × ℕ)) (obs : List WObs) :
    (polyFit ts obs).length = ts.length := List.length_ofFn _

/-- Solving a one-dimensional linear system through the adjugate inverse is
scalar division. -/
theorem matInverse_one_dim (A : Matrix (Fin 1) (Fin 1) ℚ) (b : Fin 1 → ℚ) :
    (matInverse A).mulVec b 0 = b 0 / A 0 0 := by
  unfold matInverse
  rw [Matrix.det_fin_one, Matrix.adjugate_fin_one, Matrix.smul_mulVec_assoc,
    Matrix.one_mulVec]
  rw [Pi.smul_apply, smul_eq_mul, div_eq_mul_inv, mul_comm]

/-- Fitting one constant monomial is the weighted mean of the
observations. -/
theorem lsqFit_one (φ : Fin 1 → ℕ × ℕ) (obs : List WObs)
    (hφ : φ 0 = (0, 0)) :
    (lsqFit 1 φ obs).getD 0 0 = weightedMean obs := by
  unfold lsqFit
  rw [show List.ofFn ((matInverse (lsqMatrix 1 φ obs)).mulVec
      (lsqVec 1 φ obs))
    = [((matInverse (lsqMatrix 1 φ obs)).mulVec (lsqVec 1 φ obs)) 0] from by
      simp [List.ofFn_succ]]
  show ((matInverse (lsqMatrix 1 φ obs)).mulVec (lsqVec 1 φ obs)) 0
    = weightedMean obs
  rw [matInverse_one_dim]
  unfold lsqMatrix lsqVec weightedMean
  rw [Matrix.of_apply]
  congr 1
  · refine congrArg List.sum (List.map_congr_left fun o _ => ?_)
    rw [hφ]
    show o.w * o.v * (o.x ^ 0 * o.y ^ 0) = o.w * o.v
    ring
  · refine congrArg List.sum (List.map_congr_left fun o _ => ?_)
    rw [hφ]
    show o.w * (o.x ^ 0 * o.y ^ 0) * (o.x ^ 0 * o.y ^ 0) = o.w
    ring

/-- Reading any position of an all-zero replicate list gives zero. -/
theorem getD_replicate_zero (n i : ℕ) :
    (List.replicate n (0 : ℚ)).getD i 0 = 0 := by
  induction n generalizing i with
  | zero => cases i <;> rfl
  | succ n ih =>
      cases i with
      | zero => rfl
      | succ i => exact ih i

/-- Reading position k of a map over an initial segment. -/
theorem getD_map_range {α : Type} (f : ℕ → α) (d : α) (k nb : ℕ)
    (hk : k < nb) : ((List.range nb).map f).getD k d = f k := by
  rw [List.getD_eq_getElem?_getD, List.getElem?_map, List.getElem?_range hk]
  rfl

/-- The explicit order-0 polynomial fit of a set of weighted observations is
their weighted mean. -/
theorem polyFit_order_zero (obs : List WObs) :
    (polyFit (polyTerms 0) obs).getD 0 0 = weightedMean obs := by
  show (lsqFit 1 ((polyTerms 0).get) obs).getD 0 0 = weightedMean obs
  exact lsqFit_one _ obs rfl

/-- The weighted mean of observations sharing one value is that value when
the weights do not cancel. -/
theorem weightedMean_const (obs : List WObs) (a : ℚ)
    (hval : ∀ o ∈ obs, o.v = a)
    (hw : (obs.map (fun o => o.w)).sum ≠ 0) : weightedMean obs = a := by
  unfold weightedMean
  have hnum : (obs.map (fun o => o.w * o.v)).sum
      = (obs.map (fun o => o.w)).sum * a := by
    rw [← List.sum_map_mul_right]
    refine congrArg List.sum (List.map_congr_left fun o ho => ?_)
    rw [hval o ho]
  rw [hnum, mul_comm, mul_div_assoc, div_self hw, mul_one]

/-- C3: after the spatial solve at kernel order at least 1 the spatial
kernel solution holds exactly one coefficient vector per basis kernel, each
of length (order + 1)(order + 2) / 2; the spatial background solution has
(bgOrder + 1)(bgOrder + 2) / 2 parameters when background fitting is on; and
at kernel order 0 the solution has exactly one parameter per basis. -/
theorem spatialSolution_shapes (nb o bgo : ℕ) (ffb : Bool)
    (cands : List SpatialObs) (ho : 1 ≤ o) :
    (getSpatialParameters ⟨nb, o, bgo, ffb, cands⟩).length = nb ∧
    (∀ l ∈ getSpatialParameters ⟨nb, o, bgo, ffb, cands⟩,
      l.length = nSpatialTerms o) ∧
    (ffb = true →
      (getBgParameters ⟨nb, o, bgo, ffb, cands⟩).length = nSpatialTerms bgo) ∧
    (getKernelParameters ⟨nb, 0, bgo, ffb, cands⟩).length = nb := by
  refine ⟨?_, ?_, ?_, ?_⟩
  · simp [getSpatialParameters]
  · intro l hl
    simp only [getSpatialParameters, List.mem_map, List.mem_range] at hl
    obtain ⟨k, hk, rfl⟩ := hl
    by_cases h0 : k = 0
    · rw [if_pos h0, List.length_append, polyFit_length, polyTerms_length,
        List.length_replicate]
      have hp := nSpatialTerms_pos o
      have h1 : nSpatialTerms 0 = 1 := rfl
      omega
    · rw [if_neg h0, polyFit_length, polyTerms_length]
  · intro hffb
    subst hffb
    show (getBgParameters ⟨nb, o, bgo, true, cands⟩).length = nSpatialTerms bgo
    show (polyFit (polyTerms bgo) (bgObs cands)).length = nSpatialTerms bgo
    rw [polyFit_length, polyTerms_length]
  · simp [getKernelParameters]

/-- Closed witness for C3 at a concrete solver configuration. -/
theorem spatialSolution_shapes_witness :
    (getSpatialParameters ⟨2, 1, 1, true, []⟩).length = 2 ∧
    (∀ l ∈ getSpatialParameters ⟨2, 1, 1, true, []⟩,
      l.length = nSpatialTerms 1) ∧
    (true = true → (getBgParameters ⟨2, 1, 1, true, []⟩).length
      = nSpatialTerms 1) ∧
    (getKernelParameters ⟨2, 0, 1, true, []⟩).length = 2 :=
  spatialSolution_shapes 2 1 1 true [] (by decide)

/-- C8: for every spatial solve at kernel order at least 1, the fitted
spatial polynomial attached to the first basis kernel has every non-constant
term exactly zero. -/
theorem spatialSolution_first_basis_constant (nb o bgo : ℕ) (ffb : Bool)
    (cands : List SpatialObs) (ho : 1 ≤ o) (hnb : 1 ≤ nb) (i : ℕ)
    (hi : 1 ≤ i) :
    ((getSpatialParameters ⟨nb, o, bgo, ffb, cands⟩).getD 0 []).getD i 0
      = 0 := by
  unfold getSpatialParameters
  dsimp only
  rw [getD_map_range _ _ 0 nb (by omega), if_pos rfl]
  have hlen : (polyFit (polyTerms 0) (kObs 0 cands)).length = 1 := by
    rw [polyFit_length]
    rfl
  rw [List.getD_append_right _ _ _ _ (by omega)]
  exact getD_replicate_zero _ _

/-- Closed witness for C8 at a concrete solver configuration. -/
theorem spatialSolution_first_basis_constant_witness :
    ((getSpatialParameters ⟨1, 1, 0, false,
      [⟨2, 3, [4, 5], 0, 1⟩]⟩).getD 0 []).getD 1 0 = 0 :=
  spatialSolution_first_basis_constant 1 1 0 false [⟨2, 3, [4, 5], 0, 1⟩]
    (by decide) (by decide) 1 (by decide)

/-- C2 counterexample: with two candidates whose single-kernel solutions
differ, the order-0 spatial solution is their weighted mean, so evaluating
it at the first candidate center does not reproduce that candidate's own
solution. -/
theorem spatialOrderZero_roundtrip_cex :
    (evalSpatialKernelAt
        ⟨1, 0, 0, false, [⟨0, 0, [0], 0, 1⟩, ⟨10, 0, [1], 0, 1⟩]⟩ 0 0).getD
        0 0 = 1 / 2
    ∧ (⟨0, 0, [0], 0, 1⟩ : SpatialObs).coeffs.getD 0 0 = 0
    ∧ ((1 : ℚ) / 2 ≠ 0) := by
  refine ⟨?_, rfl, by norm_num⟩
  show (getKernelParameters ⟨1, 0, 0, false,
    [⟨0, 0, [0], 0, 1⟩, ⟨10, 0, [1], 0, 1⟩]⟩).getD 0 0 = 1 / 2
  unfold getKernelParameters
  dsimp only
  rw [getD_map_range _ _ 0 1 (by omega)]
  unfold weightedMean kObs
  simp only [List.map_cons, List.map_nil, List.sum_cons, List.sum_nil,
    List.getD]
  norm_num [List.getD, List.get?]

/-- C2 amended: the order-0 shortcut (per-basis weighted mean) produces the
same spatial kernel as the general explicit order-0 polynomial solve on
every candidate set; and when all candidates share the same single-kernel
solution (in particular for a single candidate) and their weights do not
cancel, evaluating the order-0 spatial solution at any position, hence at
any candidate center, reproduces that shared solution. -/
theorem spatialOrderZero_shortcut_eq (nb bgo : ℕ) (ffb : Bool)
    (cands : List SpatialObs) :
    getKernelParameters ⟨nb, 0, bgo, ffb, cands⟩
        = generalOrderZeroSolve nb cands
    ∧ (∀ c ∈ cands, (∀ c2 ∈ cands, c2.coeffs = c.coeffs) →
        (cands.map (fun o => o.w)).sum ≠ 0 →
        ∀ (x y : ℚ) (k : ℕ), k < nb →
          (evalSpatialKernelAt ⟨nb, 0, bgo, ffb, cands⟩ x y).getD k 0
            = c.coeffs.getD k 0) := by
  constructor
  · unfold getKernelParameters generalOrderZeroSolve
    exact (List.map_congr_left fun k _ => (polyFit_order_zero _).symm)
  · intro c _ hall hw x y k hk
    show (getKernelParameters ⟨nb, 0, bgo, ffb, cands⟩).getD k 0
      = c.coeffs.getD k 0
    unfold getKernelParameters
    rw [getD_map_range _ _ k nb hk]
    refine weightedMean_const _ (c.coeffs.getD k 0) ?_ ?_
    · intro o ho
      simp only [kObs, List.mem_map] at ho
      obtain ⟨c2, hc2, rfl⟩ := ho
      show c2.coeffs.getD k 0 = c.coeffs.getD k 0
      rw [hall c2 hc2]
    · show ((kObs k cands).map (fun o => o.w)).sum ≠ 0
      unfold kObs
      rw [List.map_map]
      exact hw

/-- Closed witness for the C2 amended theorem at a single concrete
candidate. -/
theorem spatialOrderZero_shortcut_eq_witness :
    (evalSpatialKernelAt ⟨1, 0, 0, false, [⟨5, 7, [3], 0, 2⟩]⟩ 9 9).getD 0 0
      = (⟨5, 7, [3], 0, 2⟩ : SpatialObs).coeffs.getD 0 0 :=
  (spatialOrderZero_shortcut_eq 1 0 false [⟨5, 7, [3], 0, 2⟩]).2
    ⟨5, 7, [3], 0, 2⟩ (List.mem_singleton.mpr rfl)
    (fun c2 hc2 => by rw [List.mem_singleton.mp hc2]) (by simp) 9 9 0
    (by norm_num)

/-- A list sum of pointwise finite sums is the finite sum of list sums. -/
theorem list_sum_map_finset_sum {α : Type} {n : ℕ} (l : List α)
    (f : Fin n → α → ℚ) :
    (l.map (fun a => ∑ k, f k a)).sum = ∑ k, (l.map (fun a => f k a)).sum := by
  induction l with
  | nil => simp
  | cons a t ih =>
      simp only [List.map_cons, List.sum_cons, ih, Finset.sum_add_distrib]

/-- The adjugate-based inverse is a left inverse on matrices of nonzero
determinant. -/
theorem matInverse_mul_self {n : ℕ} (A : Matrix (Fin n) (Fin n) ℚ)
    (h : A.det ≠ 0) : matInverse A * A = 1 := by
  unfold matInverse
  rw [Matrix.smul_mul, Matrix.adjugate_mul, smul_smul,
    inv_mul_cancel₀ h, one_smul]

/-- Pulling a finite sum out of a weighted double sum over pixel ranges. -/
theorem sum_mul_swap {n : ℕ} (s t : Finset ℕ) (f : Fin n → ℕ → ℕ → ℚ)
    (h : ℕ → ℕ → ℚ) :
    ∑ i ∈ s, ∑ j ∈ t, (∑ k, f k i j) * h i j
      = ∑ k, ∑ i ∈ s, ∑ j ∈ t, f k i j * h i j := by
  rw [Finset.sum_congr rfl (fun i _ => Finset.sum_congr rfl (fun j _ =>
    Finset.sum_mul _ _ _))]
  rw [Finset.sum_congr rfl (fun i _ => Finset.sum_comm)]
  exact Finset.sum_comm

/-- Convolution with a linear combination of basis kernels is the linear
combination of the convolutions. -/
theorem convolvePix_combo (T : ℤ → ℤ → ℚ) {nb : ℕ} (B : BasisSet nb)
    (g : Fin nb → ℚ) (x y : ℤ) :
    convolvePix T (B.combo g) x y
      = ∑ k, g k * convolvePix T (B.kernel k) x y := by
  unfold convolvePix BasisSet.combo BasisSet.kernel Kernel2D.ctrX
    Kernel2D.ctrY
  dsimp only
  rw [sum_mul_swap]
  refine Finset.sum_congr rfl fun k _ => ?_
  rw [Finset.mul_sum]
  refine Finset.sum_congr rfl fun i _ => ?_
  rw [Finset.mul_sum]
  refine Finset.sum_congr rfl fun j _ => ?_
  ring

/-- When the science image is a scaled basis combination convolved with the
template, the single-kernel solve recovers the scaled combination
coefficients exactly (for an invertible normal-equations matrix). -/
theorem singleKernelSolve_span (nb : ℕ) (B : BasisSet nb) (g : Fin nb → ℚ)
    (T : ℤ → ℤ → ℚ) (kSumIn : ℚ) (w : ℤ → ℤ → ℚ) (pix : List (ℤ × ℤ))
    (hdet : (skNormalMatrix nb B.kernel T w pix).det ≠ 0) :
    singleKernelSolve nb B.kernel T
        (fun x y => kSumIn * convolvePix T (B.combo g) x y) w pix
      = fun k => kSumIn * g k := by
  have hb : skNormalVec nb B.kernel T
      (fun x y => kSumIn * convolvePix T (B.combo g) x y) w pix
      = (skNormalMatrix nb B.kernel T w pix).mulVec
          (fun k => kSumIn * g k) := by
    funext i
    show (pix.map (fun p => w p.1 p.2 *
        (kSumIn * convolvePix T (B.combo g) p.1 p.2) *
        convolvePix T (B.kernel i) p.1 p.2)).sum
      = ∑ k, (pix.map (fun p => w p.1 p.2 *
          convolvePix T (B.kernel i) p.1 p.2 *
          convolvePix T (B.kernel k) p.1 p.2)).sum * (kSumIn * g k)
    rw [show (fun p : ℤ × ℤ => w p.1 p.2 *
        (kSumIn * convolvePix T (B.combo g) p.1 p.2) *
        convolvePix T (B.kernel i) p.1 p.2)
      = fun p : ℤ × ℤ => ∑ k, (w p.1 p.2 *
          convolvePix T (B.kernel i) p.1 p.2 *
          convolvePix T (B.kernel k) p.1 p.2) * (kSumIn * g k) from by
        funext p
        rw [convolvePix_combo, Finset.mul_sum, Finset.mul_sum,
          Finset.sum_mul]
        exact Finset.sum_congr rfl fun k _ => by ring]
    rw [list_sum_map_finset_sum]
    exact Finset.sum_congr rfl fun k _ => List.sum_map_mul_right _ _ _
  unfold singleKernelSolve
  rw [hb, Matrix.mulVec_mulVec, matInverse_mul_self _ hdet,
    Matrix.one_mulVec]

/-- The weighted mean of one unit-weight observation is its value. -/
theorem weightedMean_singleton (o : WObs) (hw : o.w = 1) :
    weightedMean [o] = o.v := by
  unfold weightedMean
  simp [hw]

/-- Reading a function list back at an index below the length. -/
theorem getD_ofFn {n : ℕ} (f : Fin n → ℚ) (k : Fin n) :
    (List.ofFn f).getD k.val 0 = f k := by
  rw [List.getD_eq_getElem?_getD, List.getElem?_ofFn]
  unfold List.ofFnNthVal
  rw [dif_pos k.isLt]
  rfl

/-- C6: for a template stamp holding a unit impulse at its center with unit
variance, and a science stamp equal to that impulse convolved with a
normalised basis combination scaled by the flux factor kSumIn, the
single-kernel solve recovers the scaled combination coefficients exactly;
the fitted kernel flux sum equals kSumIn; and the order-0 spatial fit over
this single candidate (background disabled) yields a spatial kernel whose
flux sum also equals kSumIn exactly. -/
theorem modelPsfMatch_kernelSum_recovery (n : ℕ) (kSumIn : ℚ) (nb : ℕ)
    (B : BasisSet nb) (g : Fin nb → ℚ) (pix : List (ℤ × ℤ)) (cx cy : ℚ)
    (hdet : (skNormalMatrix nb B.kernel (impulseStamp n)
        (fun _ _ => 1) pix).det ≠ 0)
    (hnorm : ∑ k, g k * (B.kernel k).kSum = 1) :
    singleKernelSolve nb B.kernel (impulseStamp n)
        (scienceStamp n kSumIn (B.combo g)) (fun _ _ => 1) pix
      = (fun k => kSumIn * g k)
    ∧ kernelSumOfCoeffs nb B.kernel (singleKernelSolve nb B.kernel
        (impulseStamp n) (scienceStamp n kSumIn (B.combo g))
        (fun _ _ => 1) pix) = kSumIn
    ∧ kernelSumOfParams nb B.kernel (evalSpatialKernelAt
        ⟨nb, 0, 0, false, [⟨cx, cy, List.ofFn (singleKernelSolve nb B.kernel
          (impulseStamp n) (scienceStamp n kSumIn (B.combo g))
          (fun _ _ => 1) pix), 0, 1⟩]⟩ cx cy) = kSumIn := by
  unfold scienceStamp
  have hsol := singleKernelSolve_span nb B g (impulseStamp n) kSumIn
    (fun _ _ => 1) pix hdet
  have hflux : kernelSumOfCoeffs nb B.kernel (fun k => kSumIn * g k)
      = kSumIn := by
    unfold kernelSumOfCoeffs
    calc ∑ k, kSumIn * g k * (B.kernel k).kSum
        = kSumIn * ∑ k, g k * (B.kernel k).kSum := by
          rw [Finset.mul_sum]
          exact Finset.sum_congr rfl fun k _ => by ring
      _ = kSumIn := by rw [hnorm, mul_one]
  refine ⟨hsol, ?_, ?_⟩
  · rw [hsol]
    exact hflux
  · show kernelSumOfParams nb B.kernel (getKernelParameters
      ⟨nb, 0, 0, false, [⟨cx, cy, List.ofFn (singleKernelSolve nb B.kernel
        (impulseStamp n) (fun x y => kSumIn *
          convolvePix (impulseStamp n) (B.combo g) x y)
        (fun _ _ => 1) pix), 0, 1⟩]⟩)
      = kSumIn
    rw [hsol]
    have hparams : ∀ k : Fin nb,
        (getKernelParameters ⟨nb, 0, 0, false,
          [⟨cx, cy, List.ofFn (fun k => kSumIn * g k), 0, 1⟩]⟩).getD k.val 0
          = kSumIn * g k := by
      intro k
      unfold getKernelParameters
      dsimp only
      rw [getD_map_range _ _ k.val nb k.isLt]
      unfold kObs
      rw [List.map_cons, List.map_nil, weightedMean_singleton _ rfl]
      exact getD_ofFn (fun k => kSumIn * g k) k
    unfold kernelSumOfParams
    calc ∑ k : Fin nb, (getKernelParameters ⟨nb, 0, 0, false,
          [⟨cx, cy, List.ofFn (fun k => kSumIn * g k), 0, 1⟩]⟩).getD k.val 0
            * (B.kernel k).kSum
        = ∑ k : Fin nb, kSumIn * g k * (B.kernel k).kSum :=
          Finset.sum_congr rfl fun k _ => by rw [hparams k]
      _ = kSumIn := hflux

/-- Closed witness for C6 at a one-pixel stamp with a one-kernel basis and
flux factor 2. -/
theorem modelPsfMatch_kernelSum_recovery_witness :
    kernelSumOfCoeffs 1
        (BasisSet.kernel (⟨1, 1, fun _ _ _ => 1⟩ : BasisSet 1))
        (singleKernelSolve 1
          (BasisSet.kernel (⟨1, 1, fun _ _ _ => 1⟩ : BasisSet 1))
          (impulseStamp 1)
          (scienceStamp 1 2
            (BasisSet.combo (⟨1, 1, fun _ _ _ => 1⟩ : BasisSet 1)
              (fun _ => 1)))
          (fun _ _ => 1) [((0 : ℤ), (0 : ℤ))]) = 2 :=
  (modelPsfMatch_kernelSum_recovery 1 2 1
    (⟨1, 1, fun _ _ _ => 1⟩ : BasisSet 1)
    (fun _ => 1) [((0 : ℤ), (0 : ℤ))] 0 0
    (by
      rw [Matrix.det_fin_one]
      norm_num [skNormalMatrix, BasisSet.kernel, convolvePix, impulseStamp,
        Kernel2D.ctrX, Kernel2D.ctrY, Matrix.of_apply]
      decide)
    (by
      norm_num [Kernel2D.kSum, BasisSet.kernel, Fin.sum_univ_one])).2.1

/-- C7: operations needing the fitted kernel or difference image fail with
NotInitialized while no single-kernel solve has succeeded on the candidate;
after a successful BuildSingleKernelVisitor pass the candidate reports
initialized and those operations succeed. -/
theorem kernelCandidate_requires_solve (nb : ℕ) (B : BasisSet nb)
    (pix : List (ℤ × ℤ)) (c : KernelCandidate)
    (hc : c.isInitialized = false) :
    getDifferenceImage c = Except.error DiffimError.notInitialized
    ∧ getKernelImage c = Except.error DiffimError.notInitialized
    ∧ ((skNormalMatrix nb B.kernel c.tmi.img
          (fun x y => 1 / c.smi.var x y) pix).det ≠ 0 →
        (buildSingleKernelProcess nb B pix c).isInitialized = true
        ∧ (∃ d, getDifferenceImage (buildSingleKernelProcess nb B pix c)
            = Except.ok d)
        ∧ (∃ k, getKernelImage (buildSingleKernelProcess nb B pix c)
            = Except.ok k)) := by
  cases ho : c.solution with
  | some sol =>
      exfalso
      unfold KernelCandidate.isInitialized at hc
      rw [ho] at hc
      exact Bool.noConfusion hc
  | none =>
      refine ⟨?_, ?_, ?_⟩
      · simp only [getDifferenceImage, ho]
      · simp only [getKernelImage, ho]
      · intro hdet
        unfold buildSingleKernelProcess
        dsimp only
        rw [if_neg hdet]
        exact ⟨rfl, ⟨_, rfl⟩, ⟨_, rfl⟩⟩

/-- Closed witness for C7 at a concrete unsolved candidate and one-kernel
basis. -/
theorem kernelCandidate_requires_solve_witness :
    getDifferenceImage candC7 = Except.error DiffimError.notInitialized
    ∧ (buildSingleKernelProcess 1 (⟨1, 1, fun _ _ _ => 1⟩ : BasisSet 1)
        [((0 : ℤ), (0 : ℤ))] candC7).isInitialized = true :=
  have h := kernelCandidate_requires_solve 1
    (⟨1, 1, fun _ _ _ => 1⟩ : BasisSet 1) [((0 : ℤ), (0 : ℤ))] candC7 rfl
  ⟨h.1, (h.2.2 (by
    rw [Matrix.det_fin_one]
    norm_num [skNormalMatrix, BasisSet.kernel, convolvePix, impulseStamp,
      Kernel2D.ctrX, Kernel2D.ctrY, Matrix.of_apply, candC7, impulseMi]
    decide)).1⟩

/-- C4: one assessment pass over initialized candidates counts every
candidate as processed, sets a candidate GOOD exactly when its reduced chi
square under the fixed spatial model is at most the threshold and BAD
otherwise, and counts as rejected exactly the candidates it marks BAD. -/
theorem assessVisitor_threshold (skernel : ℚ → ℚ → Kernel2D)
    (sbg : ℚ → ℚ → ℚ) (thresh : ℚ) (st : AssessState)
    (cands : List KernelCandidate)
    (hinit : ∀ c ∈ cands, c.isInitialized = true) :
    (assessVisit skernel sbg thresh st cands).1.nProcessed
        = st.nProcessed + cands.length
    ∧ (assessVisit skernel sbg thresh st cands).1.nRejected
        = st.nRejected + (cands.filter (fun c =>
            !decide (spatialRchi2 skernel sbg c ≤ thresh))).length
    ∧ (assessVisit skernel sbg thresh st cands).2
        = cands.map (fun c =>
            if spatialRchi2 skernel sbg c ≤ thresh then
              { c with status := CandStatus.good }
            else { c with status := CandStatus.bad }) := by
  revert hinit
  induction cands generalizing st with
  | nil =>
      intro _
      simp [assessVisit]
  | cons c rest ih =>
      intro hinit
      have hc := hinit c (List.mem_cons_self _ _)
      have hrest := fun c2 h2 => hinit c2 (List.mem_cons_of_mem _ h2)
      unfold assessVisit
      dsimp only
      unfold assessProcessCandidate
      rw [hc, if_neg (by simp)]
      by_cases hchi : spatialRchi2 skernel sbg c ≤ thresh
      · rw [if_pos hchi]
        dsimp only
        obtain ⟨ih1, ih2, ih3⟩ := ih ⟨st.nProcessed + 1, st.nRejected⟩ hrest
        refine ⟨?_, ?_, ?_⟩
        · rw [ih1]
          dsimp only
          rw [List.length_cons]
          omega
        · rw [ih2]
          dsimp only
          rw [List.filter_cons, show (!decide (spatialRchi2 skernel sbg c
            ≤ thresh)) = false from by simp [hchi]]
          rfl
        · rw [ih3, List.map_cons, if_pos hchi]
      · rw [if_neg hchi]
        dsimp only
        obtain ⟨ih1, ih2, ih3⟩ := ih ⟨st.nProcessed + 1, st.nRejected + 1⟩
          hrest
        refine ⟨?_, ?_, ?_⟩
        · rw [ih1]
          dsimp only
          rw [List.length_cons]
          omega
        · rw [ih2]
          dsimp only
          rw [List.filter_cons, show (!decide (spatialRchi2 skernel sbg c
            ≤ thresh)) = true from by simp [hchi]]
          rw [if_pos rfl, List.length_cons]
          omega
        · rw [ih3, List.map_cons, if_neg hchi]

/-- Closed witness for C4 at a single concrete initialized candidate. -/
theorem assessVisitor_threshold_witness :
    (assessVisit (fun _ _ => ⟨1, 1, fun _ _ => 0⟩) (fun _ _ => 0) 1
        ⟨0, 0⟩ [candAssess]).1.nProcessed = 0 + 1 :=
  (assessVisitor_threshold (fun _ _ => ⟨1, 1, fun _ _ => 0⟩)
    (fun _ _ => 0) 1 ⟨0, 0⟩ [candAssess]
    (fun c hcm => by rw [List.mem_singleton.mp hcm]; rfl)).1
